import Mathlib

/-!
# Verification of the firmware-dump encoders in `src/index.tsx`

Shallow embedding of the pure binary-to-text encoders of the repository
(`toHexDump`, `toIntelHex`, `toSrec`, and the format dispatch of
`handleDownload`), together with proofs of the spec's claims about them.

Bytes are modelled as `Nat` (a `Uint8Array` element is always `< 256`;
hypotheses state this where a claim needs it).  JavaScript's
`b.toString(16).padStart(2, "0")` on a byte `b < 256` is modelled by
`toHex2`; `(x >> k) & 0xff` on a non-negative number by `x / 2^k % 256`
(the two agree modulo the 16- resp. 8-bit truncation the code performs).
-/

namespace DumpEncoder

/-- One lowercase hexadecimal digit, as JavaScript's `toString(16)` renders
it (`Nat.digitChar` yields `'0'`–`'9'`, `'a'`–`'f'` for values below 16). -/
def hexDigit (n : Nat) : Char := Nat.digitChar n

/-- `b.toString(16).padStart(2, "0")` for a byte value `b < 256`:
two lowercase hex digits. -/
def toHex2 (b : Nat) : String := ⟨[hexDigit (b / 16), hexDigit (b % 16)]⟩

/-- `s.toUpperCase()` of JavaScript, on the character data of a string. -/
def upperStr (s : String) : String := ⟨s.data.map Char.toUpper⟩

/-- `array.join(sep)` of JavaScript, here specialised to joining whole
strings with a single separator string. -/
def joinWith (sep : String) : List String → String
  | [] => ""
  | [x] => x
  | x :: xs => x ++ sep ++ joinWith sep (x :: xs).tail

/-- `data.map(b => b.toString(16).padStart(2, "0")).join("")`:
the hex body of a record. -/
def hexBody : List Nat → String
  | [] => ""
  | b :: t => toHex2 b ++ hexBody t

/-- The chunking loop `for (let i = 0; i < bytes.length; i += 16)` with
`bytes.slice(i, i + 16)`: consecutive chunks of 16 bytes, the last one
possibly shorter, none empty. -/
def chunks16 (bytes : List Nat) : List (List Nat) :=
  match bytes with
  | [] => []
  | b :: t => (b :: t).take 16 :: chunks16 ((b :: t).drop 16)
termination_by bytes.length
decreasing_by simp; omega

/-- `toHexDump` from `src/index.tsx`: 16-byte chunks, each rendered as
space-separated two-digit lowercase hex, chunks joined by newline. -/
def toHexDump (bytes : List Nat) : String :=
  joinWith "\n" ((chunks16 bytes).map fun slice =>
    joinWith " " (slice.map toHex2))

/-- `(addr >> 8) & 0xff` in `toIntelHex`. -/
def intelHi (addr : Nat) : Nat := addr / 256 % 256

/-- `addr & 0xff` in `toIntelHex`. -/
def intelLo (addr : Nat) : Nat := addr % 256

/-- The running sum `len + hi + lo + 0x00 + Σ data` of `toIntelHex`. -/
def intelSum (slice : List Nat) (addr : Nat) : Nat :=
  slice.length + intelHi addr + intelLo addr + 0 + slice.sum

/-- `(~sum + 1) & 0xff`: the two's-complement checksum byte of an Intel
HEX record. -/
def intelCks (slice : List Nat) (addr : Nat) : Nat :=
  (256 - intelSum slice addr % 256) % 256

/-- One Intel HEX data record of `toIntelHex`:
`` `:${len}${hi}${lo}00${dataHex}${cks}`.toUpperCase() ``. -/
def mkIntelRec (slice : List Nat) (addr : Nat) : String :=
  upperStr (":" ++ toHex2 slice.length ++ toHex2 (intelHi addr)
    ++ toHex2 (intelLo addr) ++ "00" ++ hexBody slice
    ++ toHex2 (intelCks slice addr))

/-- The record loop of `toIntelHex`: `addr` starts at `baseAddr` and is
advanced by each chunk's length. -/
def intelRecs (bytes : List Nat) (addr : Nat) : List String :=
  match bytes with
  | [] => []
  | b :: t =>
      mkIntelRec ((b :: t).take 16) addr
        :: intelRecs ((b :: t).drop 16) (addr + ((b :: t).take 16).length)
termination_by bytes.length
decreasing_by simp; omega

/-- `toIntelHex` from `src/index.tsx`: the data records followed by the
fixed end-of-file record, joined by newline. -/
def toIntelHex (bytes : List Nat) (baseAddr : Nat := 0) : String :=
  joinWith "\n" (intelRecs bytes baseAddr ++ [":00000001FF"])

/-- The four big-endian address bytes `[(addr >> 24) & 0xff, ...]` of an
S3 record. -/
def srecAddrBytes (addr : Nat) : List Nat :=
  [addr / 2 ^ 24 % 256, addr / 2 ^ 16 % 256, addr / 2 ^ 8 % 256, addr % 256]

/-- The byte-count field `data.length + 1` of an S3 record, where `data`
is address bytes plus payload. -/
def srecCount (slice : List Nat) : Nat := (srecAddrBytes 0 ++ slice).length + 1

/-- `data.reduce((a, b) => a + b, count) & 0xff` of `toSrec`. -/
def srecSum (slice : List Nat) (addr : Nat) : Nat :=
  (srecCount slice + (srecAddrBytes addr ++ slice).sum) % 256

/-- `(~sum) & 0xff`: the one's-complement checksum byte of an S3 record. -/
def srecCks (slice : List Nat) (addr : Nat) : Nat := 255 - srecSum slice addr

/-- One S3 record of `toSrec`:
`` `S3${count..toUpperCase()}${body.toUpperCase()}${cks}` ``.
The count and body are uppercased; the checksum hex is not. -/
def mkSrecLine (slice : List Nat) (addr : Nat) : String :=
  "S3" ++ upperStr (toHex2 (srecCount slice))
    ++ upperStr (hexBody (srecAddrBytes addr ++ slice))
    ++ toHex2 (srecCks slice addr)

/-- The record loop of `toSrec`: the chunk starting at offset `i` is
addressed at `baseAddr + i`. -/
def srecLines (bytes : List Nat) (addr : Nat) : List String :=
  match bytes with
  | [] => []
  | b :: t =>
      mkSrecLine ((b :: t).take 16) addr
        :: srecLines ((b :: t).drop 16) (addr + 16)
termination_by bytes.length
decreasing_by simp; omega

/-- `toSrec` from `src/index.tsx`: the S3 records followed by the fixed
`S7` termination record, joined by newline. -/
def toSrec (bytes : List Nat) (baseAddr : Nat := 0) : String :=
  joinWith "\n" (srecLines bytes baseAddr ++ ["S70500000000FA"])

/-- The `DumpFormat` union type of `src/index.tsx`. -/
inductive DumpFormat where
  | BIN
  | IntelHex
  | SRecord
  | AsciiText
deriving DecidableEq

/-- The output handed to `downloadBlob`: raw bytes for the binary format,
text for the others. -/
inductive EncodedOutput where
  | binary (bytes : List Nat)
  | text (s : String)
deriving DecidableEq

/-- The `switch (format)` dispatch of `handleDownload` in `src/index.tsx`:
what data each format hands to `downloadBlob`. -/
def handleDownload (format : DumpFormat) (data : List Nat) (base : Nat) :
    EncodedOutput :=
  match format with
  | .BIN => .binary data
  | .IntelHex => .text (toIntelHex data base)
  | .SRecord => .text (toSrec data base)
  | .AsciiText => .text (toHexDump data)

end DumpEncoder

namespace DumpEncoder

/-- Claim C10: on the empty byte sequence, `toIntelHex` returns exactly the
single end-of-file record `:00000001FF` and `toSrec` returns exactly the
single termination record `S70500000000FA`, for every base address. -/
theorem empty_input_only_termination (A : Nat) :
    toIntelHex [] A = ":00000001FF" ∧ toSrec [] A = "S70500000000FA" := by
  constructor <;> simp [toIntelHex, toSrec, intelRecs, srecLines, joinWith]

/-- Claim C8: the raw-binary path of `handleDownload` (format `BIN`) passes
the dumped bytes through unchanged, for every byte sequence including the
empty one. -/
theorem bin_format_is_identity (data : List Nat) (base : Nat) :
    handleDownload .BIN data base = .binary data := rfl

end DumpEncoder

namespace DumpEncoder

theorem chunks16_nil : chunks16 [] = [] := by simp [chunks16]

theorem chunks16_cons (b : Nat) (t : List Nat) :
    chunks16 (b :: t) = (b :: t).take 16 :: chunks16 ((b :: t).drop 16) := by
  rw [chunks16]

theorem intelRecs_nil (a : Nat) : intelRecs [] a = [] := by simp [intelRecs]

theorem intelRecs_cons (b : Nat) (t : List Nat) (a : Nat) :
    intelRecs (b :: t) a =
      mkIntelRec ((b :: t).take 16) a
        :: intelRecs ((b :: t).drop 16) (a + ((b :: t).take 16).length) := by
  rw [intelRecs]

theorem srecLines_nil (a : Nat) : srecLines [] a = [] := by simp [srecLines]

theorem srecLines_cons (b : Nat) (t : List Nat) (a : Nat) :
    srecLines (b :: t) a =
      mkSrecLine ((b :: t).take 16) a :: srecLines ((b :: t).drop 16) (a + 16) := by
  rw [srecLines]

/-- Concatenating the 16-byte chunks back together recovers the input. -/
theorem chunks16_flatten (bytes : List Nat) : (chunks16 bytes).flatten = bytes := by
  induction bytes using chunks16.induct with
  | case1 => simp [chunks16_nil]
  | case2 b t ih => rw [chunks16_cons, List.flatten_cons, ih, List.take_append_drop]

end DumpEncoder

namespace DumpEncoder

/-- The number of 16-byte chunks (and hence data records) for an input of
the given length. -/
theorem chunks16_eq_range (bytes : List Nat) :
    chunks16 bytes =
      (List.range ((bytes.length + 15) / 16)).map
        (fun k => (bytes.drop (16 * k)).take 16) := by
  induction bytes using chunks16.induct with
  | case1 => simp [chunks16_nil]
  | case2 b t ih =>
    rw [chunks16_cons, ih]
    have hn : ((b :: t).length + 15) / 16
        = (((b :: t).drop 16).length + 15) / 16 + 1 := by
      simp only [List.length_drop, List.length_cons]; omega
    rw [hn, List.range_succ_eq_map]
    simp only [List.map_cons, List.map_map]
    refine congrArg₂ _ (by simp) (List.map_congr_left fun k hk => ?_)
    simp only [Function.comp_apply, List.drop_drop]
    have e1 : 16 + 16 * k = 16 * (k + 1) := by ring
    have e2 : 16 * k + 16 = 16 * (k + 1) := by ring
    simp only [Nat.succ_eq_add_one, e1, e2]

theorem intelRecs_eq_range (bytes : List Nat) (a : Nat) :
    intelRecs bytes a =
      (List.range ((bytes.length + 15) / 16)).map
        (fun k => mkIntelRec ((bytes.drop (16 * k)).take 16) (a + 16 * k)) := by
  induction bytes, a using intelRecs.induct with
  | case1 a => simp [intelRecs_nil]
  | case2 a b t ih =>
    rw [intelRecs_cons, ih]
    have hn : ((b :: t).length + 15) / 16
        = (((b :: t).drop 16).length + 15) / 16 + 1 := by
      simp only [List.length_drop, List.length_cons]; omega
    rw [hn, List.range_succ_eq_map]
    simp only [List.map_cons, List.map_map]
    refine congrArg₂ _ (by simp) (List.map_congr_left fun k hk => ?_)
    simp only [Function.comp_apply, List.drop_drop]
    have hlen : ((b :: t).take 16).length = 16 := by
      simp only [List.length_drop, List.length_cons] at hk
      have := List.mem_range.mp hk
      simp only [List.length_take, List.length_cons]
      omega
    rw [hlen]
    have e1 : 16 + 16 * k = 16 * (k + 1) := by ring
    have e2 : 16 * k + 16 = 16 * (k + 1) := by ring
    have e3 : a + 16 + 16 * k = a + 16 * (k + 1) := by ring
    simp only [Nat.succ_eq_add_one, e1, e2, e3]

theorem srecLines_eq_range (bytes : List Nat) (a : Nat) :
    srecLines bytes a =
      (List.range ((bytes.length + 15) / 16)).map
        (fun k => mkSrecLine ((bytes.drop (16 * k)).take 16) (a + 16 * k)) := by
  induction bytes, a using srecLines.induct with
  | case1 a => simp [srecLines_nil]
  | case2 a b t ih =>
    rw [srecLines_cons, ih]
    have hn : ((b :: t).length + 15) / 16
        = (((b :: t).drop 16).length + 15) / 16 + 1 := by
      simp only [List.length_drop, List.length_cons]; omega
    rw [hn, List.range_succ_eq_map]
    simp only [List.map_cons, List.map_map]
    refine congrArg₂ _ (by simp) (List.map_congr_left fun k hk => ?_)
    simp only [Function.comp_apply, List.drop_drop]
    have e1 : 16 + 16 * k = 16 * (k + 1) := by ring
    have e2 : 16 * k + 16 = 16 * (k + 1) := by ring
    have e3 : a + 16 + 16 * k = a + 16 * (k + 1) := by ring
    simp only [Nat.succ_eq_add_one, e1, e2, e3]

end DumpEncoder

namespace DumpEncoder

theorem digitChar_ge16 (n : Nat) (h : 16 ≤ n) : Nat.digitChar n = '*' := by
  unfold Nat.digitChar
  rw [if_neg (by omega : ¬ n = 0), if_neg (by omega : ¬ n = 1), if_neg (by omega : ¬ n = 2),
    if_neg (by omega : ¬ n = 3), if_neg (by omega : ¬ n = 4), if_neg (by omega : ¬ n = 5),
    if_neg (by omega : ¬ n = 6), if_neg (by omega : ¬ n = 7), if_neg (by omega : ¬ n = 8),
    if_neg (by omega : ¬ n = 9), if_neg (by omega : ¬ n = 10), if_neg (by omega : ¬ n = 11),
    if_neg (by omega : ¬ n = 12), if_neg (by omega : ¬ n = 13), if_neg (by omega : ¬ n = 14),
    if_neg (by omega : ¬ n = 15)]

/-- `hexDigit` only ever renders one of the 16 hex digits, or `*` for an
out-of-range value. -/
theorem hexDigit_eq_cases (n : Nat) :
    hexDigit n = '0' ∨ hexDigit n = '1' ∨ hexDigit n = '2' ∨ hexDigit n = '3' ∨
    hexDigit n = '4' ∨ hexDigit n = '5' ∨ hexDigit n = '6' ∨ hexDigit n = '7' ∨
    hexDigit n = '8' ∨ hexDigit n = '9' ∨ hexDigit n = 'a' ∨ hexDigit n = 'b' ∨
    hexDigit n = 'c' ∨ hexDigit n = 'd' ∨ hexDigit n = 'e' ∨ hexDigit n = 'f' ∨
    hexDigit n = '*' := by
  rcases Nat.lt_or_ge n 16 with h | h
  · interval_cases n <;> decide
  · unfold hexDigit; rw [digitChar_ge16 n h]; decide

theorem hexDigit_ne_newline (n : Nat) : hexDigit n ≠ '\n' := by
  rcases hexDigit_eq_cases n with h|h|h|h|h|h|h|h|h|h|h|h|h|h|h|h|h <;> rw [h] <;> decide

theorem hexDigit_ne_space (n : Nat) : hexDigit n ≠ ' ' := by
  rcases hexDigit_eq_cases n with h|h|h|h|h|h|h|h|h|h|h|h|h|h|h|h|h <;> rw [h] <;> decide

theorem toUpper_hexDigit_ne_newline (n : Nat) : (hexDigit n).toUpper ≠ '\n' := by
  rcases hexDigit_eq_cases n with h|h|h|h|h|h|h|h|h|h|h|h|h|h|h|h|h <;> rw [h] <;> decide

/-- In range, `hexDigit` is a decimal digit or a lowercase `a`–`f`. -/
theorem hexDigit_lt16 (n : Nat) (h : n < 16) :
    (hexDigit n).isDigit = true ∨ ('a' ≤ hexDigit n ∧ hexDigit n ≤ 'f') := by
  interval_cases n <;> decide

/-- In range, the uppercased `hexDigit` is a decimal digit or `A`–`F`. -/
theorem toUpper_hexDigit_lt16 (n : Nat) (h : n < 16) :
    ((hexDigit n).toUpper).isDigit = true
      ∨ ('A' ≤ (hexDigit n).toUpper ∧ (hexDigit n).toUpper ≤ 'F') := by
  interval_cases n <;> decide

end DumpEncoder

namespace DumpEncoder

/-- Claim C1: every Intel HEX data record produced by `toIntelHex` carries a
checksum byte which, added (mod 256) to the sum of the record's length byte,
address-high byte, address-low byte, record-type byte (`0x00`) and all data
bytes, yields 0. -/
theorem intel_record_checksum (B : List Nat) (A : Nat) (r : String)
    (hr : r ∈ intelRecs B A) :
    ∃ slice addr, r = mkIntelRec slice addr ∧
      (intelCks slice addr
        + (slice.length + intelHi addr + intelLo addr + 0 + slice.sum)) % 256 = 0 := by
  rw [intelRecs_eq_range] at hr
  obtain ⟨k, _, rfl⟩ := List.mem_map.mp hr
  refine ⟨_, _, rfl, ?_⟩
  unfold intelCks intelSum
  omega

theorem intel_record_checksum_witness :
    ∃ slice addr, mkIntelRec [1, 2, 3] 0 = mkIntelRec slice addr ∧
      (intelCks slice addr
        + (slice.length + intelHi addr + intelLo addr + 0 + slice.sum)) % 256 = 0 :=
  intel_record_checksum [1, 2, 3] 0 (mkIntelRec [1, 2, 3] 0)
    (by simp [intelRecs_cons, intelRecs_nil])

/-- Claim C2: every S3 data record produced by `toSrec` carries a checksum
byte which, added (mod 256) to the sum of the record's byte-count byte,
address bytes and data bytes, equals 0xFF. -/
theorem srec_record_checksum (B : List Nat) (A : Nat) (r : String)
    (hr : r ∈ srecLines B A) :
    ∃ slice addr, r = mkSrecLine slice addr ∧
      (srecCks slice addr
        + (srecCount slice + (srecAddrBytes addr ++ slice).sum)) % 256 = 0xFF := by
  rw [srecLines_eq_range] at hr
  obtain ⟨k, _, rfl⟩ := List.mem_map.mp hr
  refine ⟨_, _, rfl, ?_⟩
  unfold srecCks srecSum
  omega

theorem srec_record_checksum_witness :
    ∃ slice addr, mkSrecLine [1, 2, 3] 0 = mkSrecLine slice addr ∧
      (srecCks slice addr
        + (srecCount slice + (srecAddrBytes addr ++ slice).sum)) % 256 = 0xFF :=
  srec_record_checksum [1, 2, 3] 0 (mkSrecLine [1, 2, 3] 0)
    (by simp [srecLines_cons, srecLines_nil])

end DumpEncoder

namespace DumpEncoder

/-- Claim C5, counterexample: for `B = [0xAA, 0xBB]`, `A = 0x100`, the data
record does NOT begin `S305...`: the byte-count field is `07` (four address
bytes + two data bytes + one checksum byte), so its first sixteen characters
differ from the claimed `S30500000100AABB`. -/
theorem srec_concrete_count_byte_counterexample :
    (toSrec [0xAA, 0xBB] 0x100).data.take 16 ≠ "S30500000100AABB".data := by
  have h : toSrec [0xAA, 0xBB] 0x100 = "S30700000100AABB92\nS70500000000FA" := by
    simp only [toSrec, srecLines_cons, srecLines_nil, List.take, List.drop]
    decide
  rw [h]
  decide

/-- Claim C5 as amended: for `B = [0xAA, 0xBB]`, `A = 0x100`, `toSrec`
produces the data record `S30700000100AABB` followed by the checksum `92`
(computed by the stated one's-complement rule), followed by the termination
line `S70500000000FA`. -/
theorem srec_concrete_record :
    toSrec [0xAA, 0xBB] 0x100 = "S30700000100AABB" ++ toHex2 (srecCks [0xAA, 0xBB] 0x100)
        ++ "\n" ++ "S70500000000FA"
      ∧ toHex2 (srecCks [0xAA, 0xBB] 0x100) = "92" := by
  constructor
  · simp only [toSrec, srecLines_cons, srecLines_nil, List.take, List.drop]
    decide
  · decide

end DumpEncoder

namespace DumpEncoder

/-- Every character of a rendered hex body is a `hexDigit` of an in-range
value, provided the rendered values are bytes. -/
theorem hexBody_data_mem (l : List Nat) (hl : ∀ b ∈ l, b < 256) (c : Char)
    (hc : c ∈ (hexBody l).data) : ∃ n, n < 16 ∧ c = hexDigit n := by
  induction l with
  | nil => cases hc
  | cons b t ih =>
      have hb : b < 256 := hl b (List.mem_cons_self b t)
      rcases List.mem_append.mp hc with h | h
      · have h' : c = hexDigit (b / 16) ∨ c = hexDigit (b % 16) := by simpa using h
        rcases h' with rfl | rfl
        · exact ⟨b / 16, by omega, rfl⟩
        · exact ⟨b % 16, by omega, rfl⟩
      · exact ih (fun x hx => hl x (List.mem_cons_of_mem b hx)) h

/-- Claim C6, counterexample: for `B = [0x00]`, `A = 0`, the single S3
record is `S3060000000000f9`, whose checksum field `f9` is rendered in
lowercase — not all hexadecimal digits of the record are uppercase. -/
theorem srec_uppercase_counterexample :
    "S3060000000000f9" ∈ srecLines [0] 0 ∧
    "S3060000000000f9".data.any Char.isLower = true := by
  refine ⟨?_, by decide⟩
  simp only [srecLines_cons, srecLines_nil, List.take, List.drop]
  decide

end DumpEncoder

namespace DumpEncoder

/-- Shape of membership in `srecLines`: every produced line is the record
of the `k`-th 16-byte chunk, addressed at `A + 16k`. -/
theorem mem_srecLines (B : List Nat) (A : Nat) (r : String)
    (hr : r ∈ srecLines B A) :
    ∃ k, k < (B.length + 15) / 16
      ∧ r = mkSrecLine ((B.drop (16 * k)).take 16) (A + 16 * k) := by
  rw [srecLines_eq_range] at hr
  obtain ⟨k, hk, rfl⟩ := List.mem_map.mp hr
  exact ⟨k, List.mem_range.mp hk, rfl⟩

/-- Shape of membership in `intelRecs`. -/
theorem mem_intelRecs (B : List Nat) (A : Nat) (r : String)
    (hr : r ∈ intelRecs B A) :
    ∃ k, k < (B.length + 15) / 16
      ∧ r = mkIntelRec ((B.drop (16 * k)).take 16) (A + 16 * k) := by
  rw [intelRecs_eq_range] at hr
  obtain ⟨k, hk, rfl⟩ := List.mem_map.mp hr
  exact ⟨k, List.mem_range.mp hk, rfl⟩

/-- Claim C6 as amended: every S3 record produced by `toSrec` is `S3`
followed by the 2-hex-digit byte count, the hex rendering of address and
data bytes, and the 2-hex-digit checksum; the count and the address/data
body are uppercase hex, but the **checksum field is rendered in lowercase**
(its digits are `0`–`9`/`a`–`f`), since the code does not uppercase it. -/
theorem srec_record_textual_form (B : List Nat) (A : Nat) (r : String)
    (hB : ∀ b ∈ B, b < 256) (hr : r ∈ srecLines B A) :
    ∃ slice addr,
      r = "S3" ++ upperStr (toHex2 (srecCount slice))
          ++ upperStr (hexBody (srecAddrBytes addr ++ slice))
          ++ toHex2 (srecCks slice addr)
      ∧ (∀ c ∈ (upperStr (toHex2 (srecCount slice))).data
            ++ (upperStr (hexBody (srecAddrBytes addr ++ slice))).data,
          c.isDigit = true ∨ ('A' ≤ c ∧ c ≤ 'F'))
      ∧ (∀ c ∈ (toHex2 (srecCks slice addr)).data,
          c.isDigit = true ∨ ('a' ≤ c ∧ c ≤ 'f')) := by
  obtain ⟨k, hk, rfl⟩ := mem_srecLines B A r hr
  set slice := (B.drop (16 * k)).take 16 with hsl
  have hslice : ∀ b ∈ slice, b < 256 := fun b hb =>
    hB b (List.mem_of_mem_drop (List.mem_of_mem_take hb))
  have hlen : slice.length ≤ 16 := by
    rw [hsl]; exact List.length_take_le 16 _
  have hcount : srecCount slice < 256 := by
    unfold srecCount srecAddrBytes; simp only [List.length_append, List.length_cons]
    simp; omega
  have hdata : ∀ b ∈ srecAddrBytes (A + 16 * k) ++ slice, b < 256 := by
    intro b hb
    rcases List.mem_append.mp hb with h | h
    · have h' : b = (A + 16 * k) / 2 ^ 24 % 256 ∨ b = (A + 16 * k) / 2 ^ 16 % 256
          ∨ b = (A + 16 * k) / 2 ^ 8 % 256 ∨ b = (A + 16 * k) % 256 := by
        simpa [srecAddrBytes] using h
      rcases h' with rfl | rfl | rfl | rfl <;> omega
    · exact hslice b h
  refine ⟨slice, A + 16 * k, rfl, ?_, ?_⟩
  · intro c hc
    rcases List.mem_append.mp hc with h | h
    · have h' : c = (hexDigit (srecCount slice / 16)).toUpper
          ∨ c = (hexDigit (srecCount slice % 16)).toUpper := by
        simpa [upperStr, toHex2] using h
      rcases h' with rfl | rfl
      · exact toUpper_hexDigit_lt16 _ (by omega)
      · exact toUpper_hexDigit_lt16 _ (by omega)
    · obtain ⟨c', hc', rfl⟩ := List.mem_map.mp h
      obtain ⟨n, hn, rfl⟩ := hexBody_data_mem _ hdata c' hc'
      exact toUpper_hexDigit_lt16 n hn
  · intro c hc
    have hcks : srecCks slice (A + 16 * k) < 256 := by unfold srecCks; omega
    have h' : c = hexDigit (srecCks slice (A + 16 * k) / 16)
        ∨ c = hexDigit (srecCks slice (A + 16 * k) % 16) := by
      simpa [toHex2] using hc
    rcases h' with rfl | rfl
    · exact hexDigit_lt16 _ (by omega)
    · exact hexDigit_lt16 _ (by omega)

theorem srec_record_textual_form_witness :
    (∀ b ∈ [1, 2, 3], b < 256) ∧
    ∃ slice addr,
      mkSrecLine [1, 2, 3] 0 = "S3" ++ upperStr (toHex2 (srecCount slice))
          ++ upperStr (hexBody (srecAddrBytes addr ++ slice))
          ++ toHex2 (srecCks slice addr)
      ∧ (∀ c ∈ (upperStr (toHex2 (srecCount slice))).data
            ++ (upperStr (hexBody (srecAddrBytes addr ++ slice))).data,
          c.isDigit = true ∨ ('A' ≤ c ∧ c ≤ 'F'))
      ∧ (∀ c ∈ (toHex2 (srecCks slice addr)).data,
          c.isDigit = true ∨ ('a' ≤ c ∧ c ≤ 'f')) :=
  ⟨by decide, srec_record_textual_form [1, 2, 3] 0 (mkSrecLine [1, 2, 3] 0)
    (by decide) (by simp [srecLines_cons, srecLines_nil])⟩

end DumpEncoder

namespace DumpEncoder

/-- Characters 3–6 of an Intel HEX data record are exactly the uppercased
4-hex-digit rendering of the record's 16-bit address field. -/
theorem mkIntelRec_address_field (s : List Nat) (a : Nat) :
    ((mkIntelRec s a).data.drop 3).take 4
      = ((toHex2 (intelHi a)).data
          ++ (toHex2 (intelLo a)).data).map Char.toUpper := rfl

/-- Claim C7: the 4-hex-digit address field of the `k`-th Intel HEX data
record equals `(A + bytes emitted in earlier records) mod 2^16`; earlier
records carry exactly `16k` bytes; and every emitted data record is built
by `mkIntelRec`, whose record-type field is the literal `00` — no extended
address (type `04`) records are ever emitted, so addresses above `0xFFFF`
silently wrap. -/
theorem intel_address_field (B : List Nat) (A : Nat) (k : Nat)
    (hk : k < (intelRecs B A).length) :
    (intelRecs B A).get ⟨k, hk⟩
        = mkIntelRec ((B.drop (16 * k)).take 16) (A + 16 * k)
    ∧ (B.take (16 * k)).length = 16 * k
    ∧ (((intelRecs B A).get ⟨k, hk⟩).data.drop 3).take 4
        = ((toHex2 (intelHi (A + 16 * k))).data
            ++ (toHex2 (intelLo (A + 16 * k))).data).map Char.toUpper
    ∧ intelHi (A + 16 * k) * 256 + intelLo (A + 16 * k) = (A + 16 * k) % 2 ^ 16
    ∧ (∀ r ∈ intelRecs B A, ∃ s a, r = mkIntelRec s a) := by
  have hk' : k < (B.length + 15) / 16 := by
    have := hk
    rw [intelRecs_eq_range] at this
    simpa using this
  have hget : (intelRecs B A).get ⟨k, hk⟩
      = mkIntelRec ((B.drop (16 * k)).take 16) (A + 16 * k) := by
    have : (intelRecs B A).get ⟨k, hk⟩ = (intelRecs B A)[k] := rfl
    rw [this]
    simp only [intelRecs_eq_range B A]
    rw [List.getElem_map, List.getElem_range]
  refine ⟨hget, ?_, ?_, ?_, ?_⟩
  · have h16 : 16 * k < B.length := by omega
    simp only [List.length_take]
    omega
  · rw [hget, mkIntelRec_address_field]
  · unfold intelHi intelLo
    omega
  · intro r hr
    obtain ⟨j, _, rfl⟩ := mem_intelRecs B A r hr
    exact ⟨_, _, rfl⟩

theorem intel_address_field_witness :
    (intelRecs [1, 2] 0).get ⟨0, by simp [intelRecs_cons, intelRecs_nil]⟩
        = mkIntelRec (([1, 2].drop (16 * 0)).take 16) (0 + 16 * 0)
    ∧ ([1, 2].take (16 * 0)).length = 16 * 0
    ∧ (((intelRecs [1, 2] 0).get
          ⟨0, by simp [intelRecs_cons, intelRecs_nil]⟩).data.drop 3).take 4
        = ((toHex2 (intelHi (0 + 16 * 0))).data
            ++ (toHex2 (intelLo (0 + 16 * 0))).data).map Char.toUpper
    ∧ intelHi (0 + 16 * 0) * 256 + intelLo (0 + 16 * 0) = (0 + 16 * 0) % 2 ^ 16
    ∧ (∀ r ∈ intelRecs [1, 2] 0, ∃ s a, r = mkIntelRec s a) :=
  intel_address_field [1, 2] 0 0 (by simp [intelRecs_cons, intelRecs_nil])

end DumpEncoder

namespace DumpEncoder

/-- Splitting a character stream at every occurrence of `sep` (the
line/token structure a text consumer sees). -/
def splitSep (sep : Char) : List Char → List (List Char)
  | [] => [[]]
  | c :: cs =>
      let r := splitSep sep cs
      if c = sep then [] :: r else (c :: r.headD []) :: r.tail

/-- Joining character chunks with a separator sequence; the character-level
counterpart of `joinWith`. -/
def joinSepC (sep : List Char) : List (List Char) → List Char
  | [] => []
  | [x] => x
  | x :: xs => x ++ sep ++ joinSepC sep (x :: xs).tail

theorem strData_append (a b : String) : (a ++ b).data = a.data ++ b.data := rfl

theorem joinWith_data (sep : String) (l : List String) :
    (joinWith sep l).data = joinSepC sep.data (l.map String.data) := by
  induction l with
  | nil => rfl
  | cons x xs ih =>
      cases xs with
      | nil => rfl
      | cons y ys =>
          show (x ++ sep ++ joinWith sep (y :: ys)).data = _
          rw [strData_append, strData_append, ih]
          rfl

theorem splitSep_ne_nil (sep : Char) (cs : List Char) : splitSep sep cs ≠ [] := by
  cases cs with
  | nil => simp [splitSep]
  | cons c cs =>
      simp only [splitSep]
      split <;> simp

/-- A separator-free chunk splits into itself alone. -/
theorem splitSep_sepFree (sep : Char) (l : List Char) (h : sep ∉ l) :
    splitSep sep l = [l] := by
  induction l with
  | nil => rfl
  | cons c cs ih =>
      have hc : c ≠ sep := fun hc => h (hc ▸ List.mem_cons_self c cs)
      have hcs : sep ∉ cs := fun hm => h (List.mem_cons_of_mem c hm)
      simp only [splitSep, if_neg hc, ih hcs]
      rfl

theorem splitSep_append (sep : Char) (p rest : List Char) (h : sep ∉ p) :
    splitSep sep (p ++ sep :: rest) = p :: splitSep sep rest := by
  induction p with
  | nil => simp [splitSep]
  | cons c cs ih =>
      have hc : c ≠ sep := fun hc => h (hc ▸ List.mem_cons_self c cs)
      have hcs : sep ∉ cs := fun hm => h (List.mem_cons_of_mem c hm)
      show splitSep sep (c :: (cs ++ sep :: rest)) = (c :: cs) :: splitSep sep rest
      simp only [splitSep, if_neg hc]
      rw [ih hcs]
      rfl

/-- Splitting is a left inverse of joining, for a nonempty list of
separator-free chunks. -/
theorem splitSep_joinSepC (sep : Char) (parts : List (List Char))
    (hne : parts ≠ []) (hfree : ∀ p ∈ parts, sep ∉ p) :
    splitSep sep (joinSepC [sep] parts) = parts := by
  induction parts with
  | nil => cases hne rfl
  | cons p ps ih =>
      cases ps with
      | nil =>
          show splitSep sep p = [p]
          exact splitSep_sepFree sep p (hfree p (List.mem_cons_self p []))
      | cons q qs =>
          show splitSep sep (p ++ [sep] ++ joinSepC [sep] (q :: qs)) = _
          rw [List.append_assoc, List.singleton_append]
          rw [splitSep_append sep p _ (hfree p (List.mem_cons_self p _))]
          rw [ih (by simp) (fun x hx => hfree x (List.mem_cons_of_mem p hx))]

/-- The lines a text consumer sees in the joined output: one line per
joined string, provided none of them contains a newline. -/
theorem splitSep_joinWith (l : List String) (hne : l ≠ [])
    (hfree : ∀ s ∈ l, '\n' ∉ s.data) :
    splitSep '\n' (joinWith "\n" l).data = l.map String.data := by
  rw [joinWith_data]
  exact splitSep_joinSepC '\n' (l.map String.data)
    (by simpa using hne)
    (by intro p hp
        obtain ⟨s, hs, rfl⟩ := List.mem_map.mp hp
        exact hfree s hs)

end DumpEncoder

namespace DumpEncoder

/-- Every character of an Intel HEX data record is the leading colon or an
uppercased in-range hex digit (given byte-valued data and a byte-valued
length field). -/
theorem mkIntelRec_chars (s : List Nat) (a : Nat) (hs : ∀ b ∈ s, b < 256)
    (hlen : s.length < 256) (c : Char) (hc : c ∈ (mkIntelRec s a).data) :
    c = ':' ∨ ∃ n, n < 16 ∧ c = (hexDigit n).toUpper := by
  obtain ⟨c', hc', rfl⟩ := List.mem_map.mp hc
  have hhi : intelHi a < 256 := by unfold intelHi; omega
  have hlo : intelLo a < 256 := by unfold intelLo; omega
  have hcks : intelCks s a < 256 := by unfold intelCks; omega
  rcases List.mem_append.mp hc' with h1 | hcks2
  · rcases List.mem_append.mp h1 with h2 | hbody
    · rcases List.mem_append.mp h2 with h3 | h00
      · rcases List.mem_append.mp h3 with h4 | hlo2
        · rcases List.mem_append.mp h4 with h5 | hhi2
          · rcases List.mem_append.mp h5 with hcolon | hlen2
            · have : c' = ':' := by simpa using hcolon
              subst this
              left
              decide
            · have h' : c' = hexDigit (s.length / 16) ∨ c' = hexDigit (s.length % 16) := by
                simpa [toHex2] using hlen2
              rcases h' with rfl | rfl
              · exact Or.inr ⟨_, by omega, rfl⟩
              · exact Or.inr ⟨_, by omega, rfl⟩
          · have h' : c' = hexDigit (intelHi a / 16) ∨ c' = hexDigit (intelHi a % 16) := by
              simpa [toHex2] using hhi2
            rcases h' with rfl | rfl
            · exact Or.inr ⟨_, by omega, rfl⟩
            · exact Or.inr ⟨_, by omega, rfl⟩
        · have h' : c' = hexDigit (intelLo a / 16) ∨ c' = hexDigit (intelLo a % 16) := by
            simpa [toHex2] using hlo2
          rcases h' with rfl | rfl
          · exact Or.inr ⟨_, by omega, rfl⟩
          · exact Or.inr ⟨_, by omega, rfl⟩
      · have h' : c' = '0' := by simpa using h00
        subst h'
        exact Or.inr ⟨0, by omega, rfl⟩
    · obtain ⟨n, hn, rfl⟩ := hexBody_data_mem s hs c' hbody
      exact Or.inr ⟨n, hn, rfl⟩
  · have h' : c' = hexDigit (intelCks s a / 16) ∨ c' = hexDigit (intelCks s a % 16) := by
      simpa [toHex2] using hcks2
    rcases h' with rfl | rfl
    · exact Or.inr ⟨_, by omega, rfl⟩
    · exact Or.inr ⟨_, by omega, rfl⟩

/-- Every character of an S3 record is `S`, an uppercased in-range hex
digit (count and address/data body), or a plain in-range hex digit (the
checksum field). -/
theorem mkSrecLine_chars (s : List Nat) (a : Nat) (hs : ∀ b ∈ s, b < 256)
    (hlen : s.length ≤ 16) (c : Char) (hc : c ∈ (mkSrecLine s a).data) :
    c = 'S' ∨ (∃ n, n < 16 ∧ c = (hexDigit n).toUpper)
      ∨ (∃ n, n < 16 ∧ c = hexDigit n) := by
  have hcount : srecCount s < 256 := by
    unfold srecCount srecAddrBytes
    simp only [List.length_append, List.length_cons, List.length_nil]
    omega
  have hcks : srecCks s a < 256 := by unfold srecCks; omega
  have hdata : ∀ b ∈ srecAddrBytes a ++ s, b < 256 := by
    intro b hb
    rcases List.mem_append.mp hb with h | h
    · have h' : b = a / 2 ^ 24 % 256 ∨ b = a / 2 ^ 16 % 256
          ∨ b = a / 2 ^ 8 % 256 ∨ b = a % 256 := by
        simpa [srecAddrBytes] using h
      rcases h' with rfl | rfl | rfl | rfl <;> omega
    · exact hs b h
  rcases List.mem_append.mp hc with h1 | hcks2
  · rcases List.mem_append.mp h1 with h2 | hbody
    · rcases List.mem_append.mp h2 with hS3 | hcount2
      · have h' : c = 'S' ∨ c = '3' := by simpa using hS3
        rcases h' with rfl | rfl
        · exact Or.inl rfl
        · exact Or.inr (Or.inr ⟨3, by omega, rfl⟩)
      · have h' : c = (hexDigit (srecCount s / 16)).toUpper
            ∨ c = (hexDigit (srecCount s % 16)).toUpper := by
          simpa [upperStr, toHex2] using hcount2
        rcases h' with rfl | rfl
        · exact Or.inr (Or.inl ⟨_, by omega, rfl⟩)
        · exact Or.inr (Or.inl ⟨_, by omega, rfl⟩)
    · obtain ⟨c', hc', rfl⟩ := List.mem_map.mp hbody
      obtain ⟨n, hn, rfl⟩ := hexBody_data_mem _ hdata c' hc'
      exact Or.inr (Or.inl ⟨n, hn, rfl⟩)
  · have h' : c = hexDigit (srecCks s a / 16) ∨ c = hexDigit (srecCks s a % 16) := by
      simpa [toHex2] using hcks2
    rcases h' with rfl | rfl
    · exact Or.inr (Or.inr ⟨_, by omega, rfl⟩)
    · exact Or.inr (Or.inr ⟨_, by omega, rfl⟩)

end DumpEncoder

namespace DumpEncoder

/-- After its leading colon, an Intel HEX data record consists solely of
uppercased in-range hex digits. -/
theorem mkIntelRec_tail_chars (s : List Nat) (a : Nat) (hs : ∀ b ∈ s, b < 256)
    (hlen : s.length < 256) (c : Char) (hc : c ∈ (mkIntelRec s a).data.tail) :
    ∃ n, n < 16 ∧ c = (hexDigit n).toUpper := by
  obtain ⟨c', hc', rfl⟩ := List.mem_map.mp hc
  have hhi : intelHi a < 256 := by unfold intelHi; omega
  have hlo : intelLo a < 256 := by unfold intelLo; omega
  have hcks : intelCks s a < 256 := by unfold intelCks; omega
  rcases List.mem_append.mp hc' with h1 | hcks2
  · rcases List.mem_append.mp h1 with h2 | hbody
    · rcases List.mem_append.mp h2 with h3 | h00
      · rcases List.mem_append.mp h3 with h4 | hlo2
        · rcases List.mem_append.mp h4 with hlen2 | hhi2
          · have h' : c' = hexDigit (s.length / 16) ∨ c' = hexDigit (s.length % 16) := by
              simpa [toHex2] using hlen2
            rcases h' with rfl | rfl
            · exact ⟨_, by omega, rfl⟩
            · exact ⟨_, by omega, rfl⟩
          · have h' : c' = hexDigit (intelHi a / 16) ∨ c' = hexDigit (intelHi a % 16) := by
              simpa [toHex2] using hhi2
            rcases h' with rfl | rfl
            · exact ⟨_, by omega, rfl⟩
            · exact ⟨_, by omega, rfl⟩
        · have h' : c' = hexDigit (intelLo a / 16) ∨ c' = hexDigit (intelLo a % 16) := by
            simpa [toHex2] using hlo2
          rcases h' with rfl | rfl
          · exact ⟨_, by omega, rfl⟩
          · exact ⟨_, by omega, rfl⟩
      · have h' : c' = '0' := by simpa using h00
        subst h'
        exact ⟨0, by omega, rfl⟩
    · exact hexBody_data_mem s hs c' hbody |>.imp fun n hn => ⟨hn.1, by rw [hn.2]⟩
  · have h' : c' = hexDigit (intelCks s a / 16) ∨ c' = hexDigit (intelCks s a % 16) := by
      simpa [toHex2] using hcks2
    rcases h' with rfl | rfl
    · exact ⟨_, by omega, rfl⟩
    · exact ⟨_, by omega, rfl⟩

/-- The produced Intel HEX lines, as a text consumer sees them. -/
theorem toIntelHex_lines (B : List Nat) (A : Nat) (hB : ∀ b ∈ B, b < 256) :
    splitSep '\n' (toIntelHex B A).data
      = (intelRecs B A ++ [":00000001FF"]).map String.data := by
  unfold toIntelHex
  apply splitSep_joinWith _ (by simp)
  intro s hs
  rcases List.mem_append.mp hs with h | h
  · obtain ⟨k, _, rfl⟩ := mem_intelRecs B A s h
    intro hmem
    have hbytes : ∀ b ∈ (B.drop (16 * k)).take 16, b < 256 := fun b hb =>
      hB b (List.mem_of_mem_drop (List.mem_of_mem_take hb))
    have hlen : ((B.drop (16 * k)).take 16).length < 256 :=
      lt_of_le_of_lt (List.length_take_le _ _) (by norm_num)
    rcases mkIntelRec_chars _ _ hbytes hlen '\n' hmem with h' | ⟨n, _, h'⟩
    · exact absurd h' (by decide)
    · exact toUpper_hexDigit_ne_newline n h'.symm
  · have h' : s = ":00000001FF" := by simpa using h
    subst h'
    decide

/-- Claim C9: every line of `toIntelHex`'s output is a leading `:` followed
solely by uppercase hexadecimal digits, and the final line is exactly the
fixed end-of-file record `:00000001FF`. -/
theorem intel_output_uppercase_and_eof (B : List Nat) (A : Nat)
    (hB : ∀ b ∈ B, b < 256) :
    (∀ line ∈ splitSep '\n' (toIntelHex B A).data,
        ∃ rest, line = ':' :: rest
          ∧ ∀ c ∈ rest, c.isDigit = true ∨ ('A' ≤ c ∧ c ≤ 'F'))
    ∧ (splitSep '\n' (toIntelHex B A).data).getLast?
        = some (":00000001FF".data) := by
  rw [toIntelHex_lines B A hB]
  constructor
  · intro line hline
    obtain ⟨rec, hrec, rfl⟩ := List.mem_map.mp hline
    rcases List.mem_append.mp hrec with h | h
    · obtain ⟨k, _, rfl⟩ := mem_intelRecs B A rec h
      have hbytes : ∀ b ∈ (B.drop (16 * k)).take 16, b < 256 := fun b hb =>
        hB b (List.mem_of_mem_drop (List.mem_of_mem_take hb))
      have hlen : ((B.drop (16 * k)).take 16).length < 256 :=
        lt_of_le_of_lt (List.length_take_le _ _) (by norm_num)
      refine ⟨(mkIntelRec ((B.drop (16 * k)).take 16) (A + 16 * k)).data.tail,
        rfl, ?_⟩
      intro c hc
      obtain ⟨n, hn, rfl⟩ := mkIntelRec_tail_chars _ _ hbytes hlen c hc
      exact toUpper_hexDigit_lt16 n hn
    · have h' : rec = ":00000001FF" := by simpa using h
      subst h'
      refine ⟨":00000001FF".data.tail, by decide, by decide⟩
  · rw [List.map_append]
    simp

theorem intel_output_uppercase_and_eof_witness :
    (∀ b ∈ [0xDE, 0xAD], b < 256) ∧
    ((∀ line ∈ splitSep '\n' (toIntelHex [0xDE, 0xAD] 0).data,
        ∃ rest, line = ':' :: rest
          ∧ ∀ c ∈ rest, c.isDigit = true ∨ ('A' ≤ c ∧ c ≤ 'F'))
    ∧ (splitSep '\n' (toIntelHex [0xDE, 0xAD] 0).data).getLast?
        = some (":00000001FF".data)) :=
  ⟨by decide, intel_output_uppercase_and_eof [0xDE, 0xAD] 0 (by decide)⟩

end DumpEncoder

namespace DumpEncoder

theorem splitSep_joinWith_space (l : List String) (hne : l ≠ [])
    (hfree : ∀ s ∈ l, ' ' ∉ s.data) :
    splitSep ' ' (joinWith " " l).data = l.map String.data := by
  rw [joinWith_data]
  exact splitSep_joinSepC ' ' (l.map String.data)
    (by simpa using hne)
    (by intro p hp
        obtain ⟨s, hs, rfl⟩ := List.mem_map.mp hp
        exact hfree s hs)

/-- Any character of a separator-joined stream is a separator character or
a character of one of the chunks. -/
theorem joinSepC_chars (sep : List Char) (parts : List (List Char)) (c : Char)
    (hc : c ∈ joinSepC sep parts) : c ∈ sep ∨ ∃ p ∈ parts, c ∈ p := by
  induction parts with
  | nil => cases hc
  | cons x xs ih =>
      cases xs with
      | nil => exact Or.inr ⟨x, List.mem_cons_self x [], hc⟩
      | cons y ys =>
          have hc' : c ∈ (x ++ sep) ++ joinSepC sep (y :: ys) := hc
          rcases List.mem_append.mp hc' with h | h
          · rcases List.mem_append.mp h with h | h
            · exact Or.inr ⟨x, List.mem_cons_self x _, h⟩
            · exact Or.inl h
          · rcases ih h with h' | ⟨p, hp, hcp⟩
            · exact Or.inl h'
            · exact Or.inr ⟨p, List.mem_cons_of_mem x hp, hcp⟩

theorem chunks16_length (B : List Nat) :
    (chunks16 B).length = (B.length + 15) / 16 := by
  rw [chunks16_eq_range]
  simp

theorem chunks16_ne_nil (B : List Nat) (h : B ≠ []) : chunks16 B ≠ [] := by
  cases B with
  | nil => cases h rfl
  | cons b t => rw [chunks16_cons]; simp

theorem mem_chunks16 (B : List Nat) (c : List Nat) (hc : c ∈ chunks16 B) :
    ∃ k, k < (B.length + 15) / 16 ∧ c = (B.drop (16 * k)).take 16 := by
  rw [chunks16_eq_range] at hc
  obtain ⟨k, hk, rfl⟩ := List.mem_map.mp hc
  exact ⟨k, List.mem_range.mp hk, rfl⟩

end DumpEncoder

namespace DumpEncoder

theorem toHexDump_lines (B : List Nat) (hB : B ≠ []) :
    splitSep '\n' (toHexDump B).data
      = (chunks16 B).map (fun c => (joinWith " " (c.map toHex2)).data) := by
  have hne : (chunks16 B).map (fun c => joinWith " " (c.map toHex2)) ≠ [] := by
    intro h
    exact chunks16_ne_nil B hB (by simpa using h)
  have hfree : ∀ s ∈ (chunks16 B).map (fun c => joinWith " " (c.map toHex2)),
      '\n' ∉ s.data := by
    intro s hs hmem
    obtain ⟨chunk, _, rfl⟩ := List.mem_map.mp hs
    rw [joinWith_data] at hmem
    rcases joinSepC_chars _ _ _ hmem with h | ⟨p, hp, hcp⟩
    · simp at h
    · obtain ⟨b, _, rfl⟩ := List.mem_map.mp (by simpa using hp)
      have h' : '\n' = hexDigit (b / 16) ∨ '\n' = hexDigit (b % 16) := by
        simpa [toHex2] using hcp
      rcases h' with h' | h' <;> exact hexDigit_ne_newline _ h'.symm
  unfold toHexDump
  rw [splitSep_joinWith _ hne hfree, List.map_map]
  rfl

/-- Claim C4: `toHexDump` yields `ceil(len(B)/16)` newline-joined lines
(`(len + 15) / 16` in truncated division); splitting the `k`-th line at
spaces yields one token per byte of the `k`-th chunk — that is,
`min 16 (len − 16k)` tokens, each two lowercase hex digits; the final chunk
is not padded (its token count is exactly the bytes remaining); and the
empty input yields the empty string. -/
theorem hexdump_shape (B : List Nat) (hB : ∀ b ∈ B, b < 256) :
    toHexDump [] = ""
    ∧ (B ≠ [] → splitSep '\n' (toHexDump B).data
        = (List.range ((B.length + 15) / 16)).map
            (fun k => (joinWith " " (((B.drop (16 * k)).take 16).map toHex2)).data))
    ∧ ∀ k, k < (B.length + 15) / 16 →
        splitSep ' ' (joinWith " " (((B.drop (16 * k)).take 16).map toHex2)).data
            = ((B.drop (16 * k)).take 16).map (fun b => (toHex2 b).data)
          ∧ (((B.drop (16 * k)).take 16).map (fun b => (toHex2 b).data)).length
              = min 16 (B.length - 16 * k)
          ∧ ∀ t ∈ ((B.drop (16 * k)).take 16).map (fun b => (toHex2 b).data),
              t.length = 2 ∧ ∀ c ∈ t, c.isDigit = true ∨ ('a' ≤ c ∧ c ≤ 'f') := by
  refine ⟨by simp [toHexDump, chunks16_nil, joinWith], fun hne => ?_, fun k hk => ?_⟩
  · rw [toHexDump_lines B hne, chunks16_eq_range, List.map_map]
    rfl
  · have hklen : 16 * k < B.length := by omega
    have hchunk_ne : (B.drop (16 * k)).take 16 ≠ [] := by
      intro h
      have := congrArg List.length h
      simp only [List.length_take, List.length_drop, List.length_nil] at this
      omega
    have htok_ne : ((B.drop (16 * k)).take 16).map toHex2 ≠ [] := by
      simpa using hchunk_ne
    have hfree : ∀ s ∈ ((B.drop (16 * k)).take 16).map toHex2, ' ' ∉ s.data := by
      intro s hs hmem
      obtain ⟨b, _, rfl⟩ := List.mem_map.mp hs
      have h' : ' ' = hexDigit (b / 16) ∨ ' ' = hexDigit (b % 16) := by
        simpa [toHex2] using hmem
      rcases h' with h' | h' <;> exact hexDigit_ne_space _ h'.symm
    refine ⟨?_, ?_, ?_⟩
    · rw [splitSep_joinWith_space _ htok_ne hfree, List.map_map]
      rfl
    · simp only [List.length_map, List.length_take, List.length_drop]
    · intro t ht
      obtain ⟨b, hb, rfl⟩ := List.mem_map.mp ht
      have hb256 : b < 256 :=
        hB b (List.mem_of_mem_drop (List.mem_of_mem_take hb))
      refine ⟨rfl, ?_⟩
      intro c hc
      have h' : c = hexDigit (b / 16) ∨ c = hexDigit (b % 16) := by
        simpa [toHex2] using hc
      rcases h' with rfl | rfl
      · exact hexDigit_lt16 _ (by omega)
      · exact hexDigit_lt16 _ (by omega)

theorem hexdump_shape_witness :
    (∀ b ∈ [0, 255, 16], b < 256) ∧
    (toHexDump [] = ""
    ∧ (([0, 255, 16] : List Nat) ≠ [] → splitSep '\n' (toHexDump [0, 255, 16]).data
        = (List.range ((([0, 255, 16] : List Nat).length + 15) / 16)).map
            (fun k => (joinWith " "
              ((([0, 255, 16] : List Nat).drop (16 * k)).take 16 |>.map toHex2)).data))
    ∧ ∀ k, k < (([0, 255, 16] : List Nat).length + 15) / 16 →
        splitSep ' ' (joinWith " "
            ((([0, 255, 16] : List Nat).drop (16 * k)).take 16 |>.map toHex2)).data
            = ((([0, 255, 16] : List Nat).drop (16 * k)).take 16).map
                (fun b => (toHex2 b).data)
          ∧ (((([0, 255, 16] : List Nat).drop (16 * k)).take 16).map
                (fun b => (toHex2 b).data)).length
              = min 16 (([0, 255, 16] : List Nat).length - 16 * k)
          ∧ ∀ t ∈ ((([0, 255, 16] : List Nat).drop (16 * k)).take 16).map
                (fun b => (toHex2 b).data),
              t.length = 2 ∧ ∀ c ∈ t, c.isDigit = true ∨ ('a' ≤ c ∧ c ≤ 'f')) :=
  ⟨by decide, hexdump_shape [0, 255, 16] (by decide)⟩

end DumpEncoder

namespace DumpEncoder

/-- Modelled from the spec: the hexadecimal digit value a standard-compliant
text decoder assigns to a character (case-insensitive), `none` on a
non-hex character. -/
def hexVal (c : Char) : Option Nat :=
  let n := c.toNat
  if 48 ≤ n ∧ n ≤ 57 then some (n - 48)
  else if 65 ≤ n ∧ n ≤ 70 then some (n - 55)
  else if 97 ≤ n ∧ n ≤ 102 then some (n - 87)
  else none

/-- Modelled from the spec: a standard decoder reads a record body as a
sequence of 2-hex-digit bytes; fails on odd length or a non-hex char. -/
def parseHexPairs : List Char → Option (List Nat)
  | [] => some []
  | c1 :: c2 :: rest =>
      match hexVal c1, hexVal c2, parseHexPairs rest with
      | some h, some l, some t => some ((16 * h + l) :: t)
      | _, _, _ => none
  | [_] => none

/-- Modelled from the spec: one line of a standard-compliant Intel HEX
decoder — `:` then bytes `len, addr-hi, addr-lo, type, data…, cks`, with
the length field and the mod-256 checksum validated.  Yields
`(record type, 16-bit address, data payload)`. -/
def parseIntelLine (line : List Char) : Option (Nat × Nat × List Nat) :=
  match line with
  | ':' :: rest =>
      match parseHexPairs rest with
      | some (len :: hi :: lo :: ty :: body) =>
          if body.length = len + 1
              ∧ (len + hi + lo + ty + body.sum) % 256 = 0 then
            some (ty, 256 * hi + lo, body.dropLast)
          else none
      | _ => none
  | _ => none

/-- Modelled from the spec: a standard-compliant Intel HEX stream decoder —
data records (type 00) followed by one final end-of-file record (type 01);
yields the data records as `(address, payload)` pairs in stream order. -/
def decodeIntelLines : List (List Char) → Option (List (Nat × List Nat))
  | [] => none
  | [line] =>
      match parseIntelLine line with
      | some (ty, _, d) => if ty = 1 ∧ d = [] then some [] else none
      | none => none
  | line :: l2 :: rest =>
      match parseIntelLine line, decodeIntelLines (l2 :: rest) with
      | some (ty, a, d), some rs => if ty = 0 then some ((a, d) :: rs) else none
      | _, _ => none

/-- Modelled from the spec: a standard-compliant Intel HEX decoder applied
to a whole text (lines separated by newline). -/
def decodeIntelHex (s : String) : Option (List (Nat × List Nat)) :=
  decodeIntelLines (splitSep '\n' s.data)

/-- Modelled from the spec: one line of a standard-compliant S-record
decoder — `S`, a type digit, then bytes `count, addr(4)…, data…, cks`,
with the count field and the one's-complement checksum validated.  Yields
`(record type, 32-bit big-endian address, data payload)`. -/
def parseSrecLine (line : List Char) : Option (Nat × Nat × List Nat) :=
  match line with
  | 'S' :: t :: rest =>
      match hexVal t, parseHexPairs rest with
      | some ty, some (count :: body) =>
          if body.length = count ∧ 5 ≤ count
              ∧ (count + body.sum) % 256 = 255 then
            some (ty, (body.take 4).foldl (fun acc b => 256 * acc + b) 0,
              (body.drop 4).dropLast)
          else none
      | _, _ => none
  | _ => none

/-- Modelled from the spec: a standard-compliant S-record stream decoder —
S3 data records followed by one final S7 termination record; yields the
data records as `(address, payload)` pairs in stream order. -/
def decodeSrecLines : List (List Char) → Option (List (Nat × List Nat))
  | [] => none
  | [line] =>
      match parseSrecLine line with
      | some (ty, a, d) => if ty = 7 ∧ a = 0 ∧ d = [] then some [] else none
      | none => none
  | line :: l2 :: rest =>
      match parseSrecLine line, decodeSrecLines (l2 :: rest) with
      | some (ty, a, d), some rs => if ty = 3 then some ((a, d) :: rs) else none
      | _, _ => none

/-- Modelled from the spec: a standard-compliant S-record decoder applied
to a whole text. -/
def decodeSrec (s : String) : Option (List (Nat × List Nat)) :=
  decodeSrecLines (splitSep '\n' s.data)

theorem hexVal_hexDigit (n : Nat) (h : n < 16) : hexVal (hexDigit n) = some n := by
  interval_cases n <;> decide

theorem hexVal_toUpper_hexDigit (n : Nat) (h : n < 16) :
    hexVal (hexDigit n).toUpper = some n := by
  interval_cases n <;> decide

end DumpEncoder

namespace DumpEncoder

theorem parseHexPairs_toHex2 (b : Nat) (hb : b < 256) (rest : List Char) :
    parseHexPairs ((toHex2 b).data ++ rest)
      = (parseHexPairs rest).map (fun t => b :: t) := by
  show parseHexPairs (hexDigit (b / 16) :: hexDigit (b % 16) :: rest) = _
  rw [parseHexPairs]
  rw [hexVal_hexDigit (b / 16) (by omega), hexVal_hexDigit (b % 16) (by omega)]
  cases hp : parseHexPairs rest with
  | none => rfl
  | some t =>
      have : 16 * (b / 16) + b % 16 = b := by omega
      simp [this]

theorem parseHexPairs_toHex2_upper (b : Nat) (hb : b < 256) (rest : List Char) :
    parseHexPairs ((toHex2 b).data.map Char.toUpper ++ rest)
      = (parseHexPairs rest).map (fun t => b :: t) := by
  show parseHexPairs
    ((hexDigit (b / 16)).toUpper :: (hexDigit (b % 16)).toUpper :: rest) = _
  rw [parseHexPairs]
  rw [hexVal_toUpper_hexDigit (b / 16) (by omega),
    hexVal_toUpper_hexDigit (b % 16) (by omega)]
  cases hp : parseHexPairs rest with
  | none => rfl
  | some t =>
      have : 16 * (b / 16) + b % 16 = b := by omega
      simp [this]

theorem parseHexPairs_hexBody_upper (l : List Nat) (hl : ∀ b ∈ l, b < 256)
    (rest : List Char) :
    parseHexPairs ((hexBody l).data.map Char.toUpper ++ rest)
      = (parseHexPairs rest).map (fun t => l ++ t) := by
  induction l generalizing rest with
  | nil =>
      show parseHexPairs rest = _
      cases parseHexPairs rest <;> rfl
  | cons b t ih =>
      have hb : b < 256 := hl b (List.mem_cons_self b t)
      have ht : ∀ x ∈ t, x < 256 := fun x hx => hl x (List.mem_cons_of_mem b hx)
      show parseHexPairs
        (((toHex2 b).data ++ (hexBody t).data).map Char.toUpper ++ rest) = _
      rw [List.map_append, List.append_assoc,
        parseHexPairs_toHex2_upper b hb, ih ht]
      cases parseHexPairs rest <;> rfl

end DumpEncoder

namespace DumpEncoder

theorem parseHexPairs_00 (rest : List Char) :
    parseHexPairs ('0' :: '0' :: rest) = (parseHexPairs rest).map (fun t => 0 :: t) := by
  rw [parseHexPairs]
  have h0 : hexVal '0' = some 0 := by decide
  rw [h0]
  cases parseHexPairs rest <;> simp

/-- A standard-compliant Intel HEX line parser accepts every data record
the encoder produces, and recovers the chunk and the 16-bit address field. -/
theorem parseIntelLine_mkIntelRec (s : List Nat) (a : Nat)
    (hs : ∀ b ∈ s, b < 256) (hlen : s.length ≤ 16) :
    parseIntelLine (mkIntelRec s a).data
      = some (0, 256 * intelHi a + intelLo a, s) := by
  have hhi : intelHi a < 256 := by unfold intelHi; omega
  have hlo : intelLo a < 256 := by unfold intelLo; omega
  have hcks : intelCks s a < 256 := by unfold intelCks; omega
  show parseIntelLine (':' :: (((((
      (toHex2 s.length).data ++ (toHex2 (intelHi a)).data)
      ++ (toHex2 (intelLo a)).data) ++ ['0', '0']) ++ (hexBody s).data)
      ++ (toHex2 (intelCks s a)).data).map Char.toUpper) = _
  rw [parseIntelLine]
  rw [List.map_append, List.map_append, List.map_append, List.map_append,
    List.map_append]
  rw [List.append_assoc, List.append_assoc, List.append_assoc,
    List.append_assoc]
  have h00 : (['0', '0'] : List Char).map Char.toUpper = '0' :: '0' :: [] := by
    decide
  rw [h00]
  rw [parseHexPairs_toHex2_upper s.length (by omega)]
  rw [parseHexPairs_toHex2_upper (intelHi a) hhi]
  rw [parseHexPairs_toHex2_upper (intelLo a) hlo]
  show (match
      (parseHexPairs ('0' :: '0' :: ((hexBody s).data.map Char.toUpper
        ++ (toHex2 (intelCks s a)).data.map Char.toUpper))).map
        (fun t => intelLo a :: t) |>.map (fun t => intelHi a :: t)
        |>.map (fun t => s.length :: t) with
    | some (len :: hi :: lo :: ty :: body) =>
        if body.length = len + 1
            ∧ (len + hi + lo + ty + body.sum) % 256 = 0 then
          some (ty, 256 * hi + lo, body.dropLast)
        else none
    | _ => none) = _
  rw [parseHexPairs_00]
  rw [parseHexPairs_hexBody_upper s hs]
  have hckseq : (toHex2 (intelCks s a)).data.map Char.toUpper
      = (toHex2 (intelCks s a)).data.map Char.toUpper ++ [] := by simp
  rw [hckseq, parseHexPairs_toHex2_upper (intelCks s a) hcks]
  show (match some (s.length :: intelHi a :: intelLo a :: 0 :: (s ++ [intelCks s a])) with
    | some (len :: hi :: lo :: ty :: body) =>
        if body.length = len + 1
            ∧ (len + hi + lo + ty + body.sum) % 256 = 0 then
          some (ty, 256 * hi + lo, body.dropLast)
        else none
    | _ => none) = some (0, 256 * intelHi a + intelLo a, s)
  have hcond : (s ++ [intelCks s a]).length = s.length + 1
      ∧ (s.length + intelHi a + intelLo a + 0 + (s ++ [intelCks s a]).sum) % 256
          = 0 := by
    constructor
    · simp
    · rw [List.sum_append]
      simp only [List.sum_cons, List.sum_nil]
      unfold intelCks intelSum
      omega
  simp only [if_pos hcond]
  rw [List.dropLast_concat]

end DumpEncoder

namespace DumpEncoder

theorem parseIntelLine_eof : parseIntelLine ":00000001FF".data = some (1, 0, []) := by
  decide

/-- What a standard-compliant Intel HEX decoder recovers from the encoder's
output: one `(address field, chunk)` pair per 16-byte chunk. -/
def intelDecoded (B : List Nat) (A : Nat) : List (Nat × List Nat) :=
  (List.range ((B.length + 15) / 16)).map
    (fun k => (256 * intelHi (A + 16 * k) + intelLo (A + 16 * k),
               (B.drop (16 * k)).take 16))

theorem intelDecoded_nil (a : Nat) : intelDecoded [] a = [] := by
  simp [intelDecoded]

theorem intelDecoded_cons (b : Nat) (t : List Nat) (a : Nat) :
    intelDecoded (b :: t) a
      = (256 * intelHi a + intelLo a, (b :: t).take 16)
          :: intelDecoded ((b :: t).drop 16) (a + ((b :: t).take 16).length) := by
  unfold intelDecoded
  have hn : ((b :: t).length + 15) / 16
      = (((b :: t).drop 16).length + 15) / 16 + 1 := by
    simp only [List.length_drop, List.length_cons]; omega
  rw [hn, List.range_succ_eq_map]
  simp only [List.map_cons, List.map_map]
  refine congrArg₂ _ (by simp) (List.map_congr_left fun k hk => ?_)
  simp only [Function.comp_apply, List.drop_drop]
  have hlen : ((b :: t).take 16).length = 16 := by
    simp only [List.length_drop, List.length_cons] at hk
    have := List.mem_range.mp hk
    simp only [List.length_take, List.length_cons]
    omega
  rw [hlen]
  have e1 : 16 + 16 * k = 16 * (k + 1) := by ring
  have e2 : 16 * k + 16 = 16 * (k + 1) := by ring
  have e3 : a + 16 + 16 * k = a + 16 * (k + 1) := by ring
  simp only [Nat.succ_eq_add_one, e1, e2, e3]

/-- The stream decoder accepts the full encoder output and recovers every
chunk with its address field. -/
theorem decodeIntelLines_encoder (B : List Nat) (A : Nat) :
    (∀ b ∈ B, b < 256) →
    decodeIntelLines ((intelRecs B A ++ [":00000001FF"]).map String.data)
      = some (intelDecoded B A) := by
  induction B, A using intelRecs.induct with
  | case1 a =>
      intro _
      rw [intelRecs_nil, intelDecoded_nil]
      decide
  | case2 a b t ih =>
      intro hB
      have hchunk_bytes : ∀ x ∈ (b :: t).take 16, x < 256 := fun x hx =>
        hB x (List.mem_of_mem_take hx)
      have hchunk_len : ((b :: t).take 16).length ≤ 16 := List.length_take_le _ _
      have hdrop_bytes : ∀ x ∈ (b :: t).drop 16, x < 256 := fun x hx =>
        hB x (List.mem_of_mem_drop hx)
      rw [intelRecs_cons, List.cons_append]
      obtain ⟨l2, r2, heq⟩ := List.exists_cons_of_ne_nil
        (show intelRecs ((b :: t).drop 16) (a + ((b :: t).take 16).length)
            ++ [":00000001FF"] ≠ [] by simp)
      rw [heq, List.map_cons, List.map_cons]
      have ih' := ih hdrop_bytes
      rw [heq, List.map_cons] at ih'
      rw [decodeIntelLines, parseIntelLine_mkIntelRec _ _ hchunk_bytes hchunk_len,
        ih', intelDecoded_cons]
      simp

end DumpEncoder

namespace DumpEncoder

theorem srecAddrBytes_length (a : Nat) : (srecAddrBytes a).length = 4 := by
  simp [srecAddrBytes]

theorem srecAddr_foldl (a : Nat) :
    (srecAddrBytes a).foldl (fun acc b => 256 * acc + b) 0 = a % 2 ^ 32 := by
  unfold srecAddrBytes
  simp only [List.foldl_cons, List.foldl_nil]
  norm_num
  omega

/-- A standard-compliant S-record line parser accepts every S3 record the
encoder produces, and recovers the chunk and the 32-bit address. -/
theorem parseSrecLine_mkSrecLine (s : List Nat) (a : Nat)
    (hs : ∀ b ∈ s, b < 256) (hlen : s.length ≤ 16) :
    parseSrecLine (mkSrecLine s a).data = some (3, a % 2 ^ 32, s) := by
  have hcount : srecCount s < 256 := by
    unfold srecCount srecAddrBytes
    simp only [List.length_append, List.length_cons, List.length_nil]
    omega
  have hcks : srecCks s a < 256 := by unfold srecCks; omega
  have hdata : ∀ b ∈ srecAddrBytes a ++ s, b < 256 := by
    intro b hb
    rcases List.mem_append.mp hb with h | h
    · have h' : b = a / 2 ^ 24 % 256 ∨ b = a / 2 ^ 16 % 256
          ∨ b = a / 2 ^ 8 % 256 ∨ b = a % 256 := by
        simpa [srecAddrBytes] using h
      rcases h' with rfl | rfl | rfl | rfl <;> omega
    · exact hs b h
  show parseSrecLine ('S' :: '3' ::
      (((toHex2 (srecCount s)).data.map Char.toUpper
        ++ (hexBody (srecAddrBytes a ++ s)).data.map Char.toUpper)
        ++ (toHex2 (srecCks s a)).data)) = _
  rw [parseSrecLine]
  have h3 : hexVal '3' = some 3 := by decide
  rw [h3, List.append_assoc]
  rw [parseHexPairs_toHex2_upper (srecCount s) hcount]
  rw [parseHexPairs_hexBody_upper (srecAddrBytes a ++ s) hdata]
  have hckseq : (toHex2 (srecCks s a)).data
      = (toHex2 (srecCks s a)).data ++ [] := by simp
  rw [hckseq, parseHexPairs_toHex2 (srecCks s a) hcks]
  show (match some (srecCount s
        :: (srecAddrBytes a ++ s ++ [srecCks s a])) with
    | some (count :: body) =>
        if body.length = count ∧ 5 ≤ count
            ∧ (count + body.sum) % 256 = 255 then
          some (3, (body.take 4).foldl (fun acc b => 256 * acc + b) 0,
            (body.drop 4).dropLast)
        else none
    | _ => none) = some (3, a % 2 ^ 32, s)
  have hcond : (srecAddrBytes a ++ s ++ [srecCks s a]).length = srecCount s
      ∧ 5 ≤ srecCount s
      ∧ (srecCount s + (srecAddrBytes a ++ s ++ [srecCks s a]).sum) % 256
          = 255 := by
    refine ⟨?_, ?_, ?_⟩
    · unfold srecCount
      simp [srecAddrBytes]
    · unfold srecCount srecAddrBytes
      simp only [List.length_append, List.length_cons, List.length_nil]
      omega
    · rw [List.append_assoc, List.sum_append, List.sum_append]
      simp only [List.sum_cons, List.sum_nil]
      unfold srecCks srecSum
      rw [List.sum_append]
      omega
  simp only [if_pos hcond]
  rw [List.append_assoc, List.take_left' (srecAddrBytes_length a),
    List.drop_left' (srecAddrBytes_length a), List.dropLast_concat,
    srecAddr_foldl]

theorem parseSrecLine_term : parseSrecLine "S70500000000FA".data = some (7, 0, []) := by
  decide

/-- What a standard-compliant S-record decoder recovers from the encoder's
output: one `(address, chunk)` pair per 16-byte chunk. -/
def srecDecoded (B : List Nat) (A : Nat) : List (Nat × List Nat) :=
  (List.range ((B.length + 15) / 16)).map
    (fun k => ((A + 16 * k) % 2 ^ 32, (B.drop (16 * k)).take 16))

theorem srecDecoded_nil (a : Nat) : srecDecoded [] a = [] := by
  simp [srecDecoded]

theorem srecDecoded_cons (b : Nat) (t : List Nat) (a : Nat) :
    srecDecoded (b :: t) a
      = (a % 2 ^ 32, (b :: t).take 16)
          :: srecDecoded ((b :: t).drop 16) (a + 16) := by
  unfold srecDecoded
  have hn : ((b :: t).length + 15) / 16
      = (((b :: t).drop 16).length + 15) / 16 + 1 := by
    simp only [List.length_drop, List.length_cons]; omega
  rw [hn, List.range_succ_eq_map]
  simp only [List.map_cons, List.map_map]
  refine congrArg₂ _ (by simp) (List.map_congr_left fun k hk => ?_)
  simp only [Function.comp_apply, List.drop_drop]
  have e1 : 16 + 16 * k = 16 * (k + 1) := by ring
  have e2 : 16 * k + 16 = 16 * (k + 1) := by ring
  have e3 : a + 16 + 16 * k = a + 16 * (k + 1) := by ring
  simp only [Nat.succ_eq_add_one, e1, e2, e3]

theorem decodeSrecLines_encoder (B : List Nat) (A : Nat) :
    (∀ b ∈ B, b < 256) →
    decodeSrecLines ((srecLines B A ++ ["S70500000000FA"]).map String.data)
      = some (srecDecoded B A) := by
  induction B, A using srecLines.induct with
  | case1 a =>
      intro _
      rw [srecLines_nil, srecDecoded_nil]
      decide
  | case2 a b t ih =>
      intro hB
      have hchunk_bytes : ∀ x ∈ (b :: t).take 16, x < 256 := fun x hx =>
        hB x (List.mem_of_mem_take hx)
      have hchunk_len : ((b :: t).take 16).length ≤ 16 := List.length_take_le _ _
      have hdrop_bytes : ∀ x ∈ (b :: t).drop 16, x < 256 := fun x hx =>
        hB x (List.mem_of_mem_drop hx)
      rw [srecLines_cons, List.cons_append]
      obtain ⟨l2, r2, heq⟩ := List.exists_cons_of_ne_nil
        (show srecLines ((b :: t).drop 16) (a + 16)
            ++ ["S70500000000FA"] ≠ [] by simp)
      rw [heq, List.map_cons, List.map_cons]
      have ih' := ih hdrop_bytes
      rw [heq, List.map_cons] at ih'
      rw [decodeSrecLines, parseSrecLine_mkSrecLine _ _ hchunk_bytes hchunk_len,
        ih', srecDecoded_cons]
      simp

end DumpEncoder

namespace DumpEncoder

/-- The produced S-record lines, as a text consumer sees them. -/
theorem toSrec_lines (B : List Nat) (A : Nat) (hB : ∀ b ∈ B, b < 256) :
    splitSep '\n' (toSrec B A).data
      = (srecLines B A ++ ["S70500000000FA"]).map String.data := by
  unfold toSrec
  apply splitSep_joinWith _ (by simp)
  intro s hs
  rcases List.mem_append.mp hs with h | h
  · obtain ⟨k, _, rfl⟩ := mem_srecLines B A s h
    intro hmem
    have hbytes : ∀ b ∈ (B.drop (16 * k)).take 16, b < 256 := fun b hb =>
      hB b (List.mem_of_mem_drop (List.mem_of_mem_take hb))
    have hlen : ((B.drop (16 * k)).take 16).length ≤ 16 :=
      List.length_take_le _ _
    rcases mkSrecLine_chars _ _ hbytes hlen '\n' hmem
      with h' | ⟨n, _, h'⟩ | ⟨n, _, h'⟩
    · exact absurd h' (by decide)
    · exact toUpper_hexDigit_ne_newline n h'.symm
    · exact hexDigit_ne_newline n h'.symm
  · have h' : s = "S70500000000FA" := by simpa using h
    subst h'
    decide

/-- Claim C3: for byte sequences placed within non-extended 16-bit
addressing (`A + len(B) ≤ 2^16`), decoding the produced Intel HEX
(resp. S-record) text with a standard-compliant decoder yields data
records whose addresses strictly increase in stream order — so stream
order is address order — and concatenating their payloads reconstructs
`B` exactly. -/
theorem roundtrip_via_standard_decoders (B : List Nat) (A : Nat)
    (hB : ∀ b ∈ B, b < 256) (hA : A + B.length ≤ 65536) :
    (∃ recs, decodeIntelHex (toIntelHex B A) = some recs
      ∧ List.Pairwise (· < ·) (recs.map Prod.fst)
      ∧ (recs.map Prod.snd).flatten = B)
    ∧ (∃ recs, decodeSrec (toSrec B A) = some recs
      ∧ List.Pairwise (· < ·) (recs.map Prod.fst)
      ∧ (recs.map Prod.snd).flatten = B) := by
  constructor
  · refine ⟨intelDecoded B A, ?_, ?_, ?_⟩
    · unfold decodeIntelHex
      rw [toIntelHex_lines B A hB]
      exact decodeIntelLines_encoder B A hB
    · unfold intelDecoded
      rw [List.map_map]
      have hmap : (List.range ((B.length + 15) / 16)).map
          (Prod.fst ∘ fun k => (256 * intelHi (A + 16 * k) + intelLo (A + 16 * k),
            (B.drop (16 * k)).take 16))
          = (List.range ((B.length + 15) / 16)).map (fun k => A + 16 * k) := by
        apply List.map_congr_left
        intro k hk
        have hk' := List.mem_range.mp hk
        have h16 : 16 * k < B.length := by omega
        show 256 * intelHi (A + 16 * k) + intelLo (A + 16 * k) = A + 16 * k
        unfold intelHi intelLo
        omega
      rw [hmap]
      exact (List.pairwise_lt_range _).map _ (fun a b hab => by omega)
    · unfold intelDecoded
      rw [List.map_map]
      have : (List.range ((B.length + 15) / 16)).map
          (Prod.snd ∘ fun k => (256 * intelHi (A + 16 * k) + intelLo (A + 16 * k),
            (B.drop (16 * k)).take 16)) = chunks16 B := by
        rw [chunks16_eq_range]
        exact List.map_congr_left fun k hk => rfl
      rw [this, chunks16_flatten]
  · refine ⟨srecDecoded B A, ?_, ?_, ?_⟩
    · unfold decodeSrec
      rw [toSrec_lines B A hB]
      exact decodeSrecLines_encoder B A hB
    · unfold srecDecoded
      rw [List.map_map]
      have hmap : (List.range ((B.length + 15) / 16)).map
          (Prod.fst ∘ fun k => ((A + 16 * k) % 2 ^ 32, (B.drop (16 * k)).take 16))
          = (List.range ((B.length + 15) / 16)).map (fun k => A + 16 * k) := by
        apply List.map_congr_left
        intro k hk
        have hk' := List.mem_range.mp hk
        have h16 : 16 * k < B.length := by omega
        show (A + 16 * k) % 2 ^ 32 = A + 16 * k
        have hlt : A + 16 * k < 2 ^ 32 := by norm_num; omega
        exact Nat.mod_eq_of_lt hlt
      rw [hmap]
      exact (List.pairwise_lt_range _).map _ (fun a b hab => by omega)
    · unfold srecDecoded
      rw [List.map_map]
      have : (List.range ((B.length + 15) / 16)).map
          (Prod.snd ∘ fun k => ((A + 16 * k) % 2 ^ 32, (B.drop (16 * k)).take 16))
          = chunks16 B := by
        rw [chunks16_eq_range]
        exact List.map_congr_left fun k hk => rfl
      rw [this, chunks16_flatten]

theorem roundtrip_via_standard_decoders_witness :
    (∀ b ∈ [7, 8, 9], b < 256) ∧ 32 + ([7, 8, 9] : List Nat).length ≤ 65536 ∧
    ((∃ recs, decodeIntelHex (toIntelHex [7, 8, 9] 32) = some recs
      ∧ List.Pairwise (· < ·) (recs.map Prod.fst)
      ∧ (recs.map Prod.snd).flatten = [7, 8, 9])
    ∧ (∃ recs, decodeSrec (toSrec [7, 8, 9] 32) = some recs
      ∧ List.Pairwise (· < ·) (recs.map Prod.fst)
      ∧ (recs.map Prod.snd).flatten = [7, 8, 9])) :=
  ⟨by decide, by decide,
    roundtrip_via_standard_decoders [7, 8, 9] 32 (by decide) (by decide)⟩

end DumpEncoder
